import Mathlib

/-!
Verification development for the luna-lang front end (crate `parse`):
the concurrent segmented arena (`src/parse/src/arena.rs`), the source
cache (`src/parse/src/span.rs`) and the chumsky-based lexer
(`src/parse/src/lexer.rs`), shallowly embedded as executable Lean
functions.  The embedding follows the source in the sequential
(single-thread) execution order; machine integers are modelled as Nat
with an explicit `% 2^32` where the source casts to `u32`.
-/

namespace Luna

/-- Modulus of the `u32` casts `rest.len() as u32` and `slot as u32`
in `Arena::insert` and of the comparison in `Arena::get`. -/
def U32 : Nat := 4294967296

/-- `Id<T>` from arena.rs: `seg: u32`, `idx: u32` (the phantom type
parameter is erased; equality is structural, as derived in the source). -/
structure ArenaId where
  seg : Nat
  idx : Nat
deriving DecidableEq, Repr

/-- State of `Arena<T, N>`: the atomic counter `next`, the retired
segments `rest` (a `boxcar::Vec` of segment pointers, in push order) and
the `current` segment.  A segment is modelled as a store
`Nat -> Option T`: `none` marks a slot never written (uninitialized
memory behind the raw pointer), `some v` a slot holding `v`.  The write
`current.load().cast::<T>().add(slot).write(value)` becomes a pointwise
update at `slot`.  The store records writes at every index so that they
can be identified, but the allocation behind each segment pointer is
`Layout::array::<T>(N)` — exactly `N` slots — so any access at an
in-segment index `≥ N` is outside the allocation: undefined behavior in
the source, with no defined result.  `Arena.getChecked` below enforces
that bound; the raw `Arena.get` reads the store as the pointer
arithmetic would, including the out-of-bounds cells. -/
structure ArenaState (T : Type) where
  next : Nat
  rest : List (Nat → Option T)
  current : Nat → Option T

/-- `Arena::new()`: counter at 0, one freshly allocated (uninitialized)
segment, no retired segments. -/
def ArenaState.fresh (T : Type) : ArenaState T :=
  { next := 0, rest := [], current := fun _ => none }

/-- `Arena::insert`, sequential execution.  The source first performs
`self.next.fetch_add(1, SeqCst)` whose result is compared to `N` and
discarded (the `if ... {}` has an empty body), then `fetch_update` reads
the incremented value `v = next + 1`: if `v > N` it pushes the current
segment onto `rest`, swaps in a fresh segment and stores 0, otherwise it
stores `v + 1`; either way `fetch_update` returns the PREVIOUS value
`v`, which becomes the slot written.  The id records `rest.len()` after
the push and the slot, both cast to `u32`. -/
def Arena.insert {T : Type} (N : Nat) (s : ArenaState T) (v : T) :
    ArenaState T × ArenaId :=
  let n := s.next + 1
  if n > N then
    let rest' := s.rest ++ [s.current]
    ( { next := 0, rest := rest',
        current := fun j => if j = n then some v else none },
      { seg := rest'.length % U32, idx := n % U32 } )
  else
    ( { next := n + 1, rest := s.rest,
        current := fun j => if j = n then some v else s.current j },
      { seg := s.rest.length % U32, idx := n % U32 } )

/-- `Arena::get`: if `id.seg == self.rest.len() as u32` read the current
segment, otherwise index `rest` with `id.seg`; then read the slot at
`id.idx`.  A read of a never-written slot (uninitialized memory) or an
out-of-range `rest` index (a panic in the source) is `none`. -/
def Arena.get {T : Type} (s : ArenaState T) (id : ArenaId) : Option T :=
  if id.seg = s.rest.length % U32 then s.current id.idx
  else
    match s.rest[id.seg]? with
    | some sg => sg id.idx
    | none => none

/-- `Arena::get` with the `[T; N]` allocation bound enforced: each
segment holds exactly `N` slots, so a read at an in-segment index `≥ N`
dereferences past the end of the allocation — undefined behavior in the
source — and has no defined value; for in-bounds indices this agrees
with `Arena.get`. -/
def Arena.getChecked {T : Type} (N : Nat) (s : ArenaState T) (id : ArenaId) : Option T :=
  if id.idx < N then Arena.get s id else none

/-- Sequence of `insert` calls, returning the final state and the ids in
call order. -/
def insertList {T : Type} (N : Nat) : ArenaState T → List T → ArenaState T × List ArenaId
  | s, [] => (s, [])
  | s, v :: vs =>
    let r := Arena.insert N s v
    let q := insertList N r.1 vs
    (q.1, r.2 :: q.2)

/-- The slots on which `Drop for Arena` runs `drop_in_place`: for every
segment in `rest` and for the current segment, exactly the in-segment
indices `0 .. N-1` (the loops `for i in 0..N`).  A pair `(k, i)` names
segment `k` (in the order `rest` first, `current` = index `rest.len()`)
and slot `i`. -/
def Arena.dropTargets {T : Type} (N : Nat) (s : ArenaState T) : List (Nat × Nat) :=
  (List.range (s.rest.length + 1)).flatMap
    (fun k => (List.range N).map (fun i => (k, i)))

/-- Physical read of segment `k`, slot `i` (segment order as in
`dropTargets`); `some v` means the slot was written (claimed), `none`
that it is uninitialized. -/
def Arena.cellAt {T : Type} (s : ArenaState T) (k i : Nat) : Option T :=
  if k = s.rest.length then s.current i
  else
    match s.rest[k]? with
    | some sg => sg i
    | none => none

/-- Invariant of reachable arena states (sequential use): all slots of
the current segment between `next + 1` and `N` are unwritten, and the
counter never exceeds `N + 1`. -/
structure ArenaInv {T : Type} (N : Nat) (s : ArenaState T) : Prop where
  hi : ∀ j, s.next + 1 ≤ j → j ≤ N → s.current j = none
  nle : s.next ≤ N + 1

theorem arenaInv_fresh {T : Type} (N : Nat) : ArenaInv N (ArenaState.fresh T) :=
  ⟨fun _ _ _ => rfl, Nat.zero_le _⟩

theorem mod_u32_small {a : Nat} (h : a < U32) : a % U32 = a := Nat.mod_eq_of_lt h

theorem get_mk {T : Type} (nx : Nat) (rs : List (Nat → Option T))
    (cur : Nat → Option T) (id : ArenaId) :
    Arena.get ⟨nx, rs, cur⟩ id =
      if id.seg = rs.length % U32 then cur id.idx
      else
        match rs[id.seg]? with
        | some sg => sg id.idx
        | none => none := rfl

theorem insert_rotate {T : Type} {N : Nat} {s : ArenaState T} (v : T)
    (hc : s.next + 1 > N) :
    Arena.insert N s v =
      ({ next := 0, rest := s.rest ++ [s.current],
         current := fun j => if j = s.next + 1 then some v else none },
       { seg := (s.rest.length + 1) % U32, idx := (s.next + 1) % U32 }) := by
  unfold Arena.insert
  rw [if_pos hc]
  simp

theorem insert_plain {T : Type} {N : Nat} {s : ArenaState T} (v : T)
    (hc : ¬ s.next + 1 > N) :
    Arena.insert N s v =
      ({ next := s.next + 2, rest := s.rest,
         current := fun j => if j = s.next + 1 then some v else s.current j },
       { seg := s.rest.length % U32, idx := (s.next + 1) % U32 }) := by
  unfold Arena.insert
  rw [if_neg hc]

theorem insert_rest_le {T : Type} (N : Nat) (s : ArenaState T) (v : T) :
    (Arena.insert N s v).1.rest.length ≤ s.rest.length + 1 := by
  by_cases hc : s.next + 1 > N
  · rw [insert_rotate v hc]; dsimp only; simp
  · rw [insert_plain v hc]
    dsimp only
    omega

theorem insert_inv {T : Type} {N : Nat} {s : ArenaState T} (hInv : ArenaInv N s) (v : T) :
    ArenaInv N (Arena.insert N s v).1 := by
  by_cases hc : s.next + 1 > N
  · rw [insert_rotate v hc]
    refine ⟨?_, Nat.zero_le _⟩
    intro j hj1 hj2
    dsimp only at hj1 ⊢
    have hne : j ≠ s.next + 1 := by omega
    simp [hne]
  · rw [insert_plain v hc]
    refine ⟨?_, ?_⟩
    · intro j hj1 hj2
      dsimp only at hj1 ⊢
      have hne : j ≠ s.next + 1 := by omega
      simp only [hne, if_false]
      exact hInv.hi j (by omega) hj2
    · show s.next + 2 ≤ N + 1
      omega

theorem insert_id_get_pre {T : Type} {N : Nat} {s : ArenaState T}
    (hInv : ArenaInv N s) (hN : N + 2 < U32) (hr : s.rest.length + 1 < U32) (v : T) :
    Arena.get s (Arena.insert N s v).2 = none := by
  have hn : s.next + 1 < U32 := by have := hInv.nle; omega
  have h2 : s.rest.length % U32 = s.rest.length := mod_u32_small (by omega)
  have hhi := hInv.hi
  by_cases hc : s.next + 1 > N
  · rw [insert_rotate v hc]
    dsimp only
    rw [Arena.get]
    have h1 : (s.rest.length + 1) % U32 = s.rest.length + 1 := mod_u32_small hr
    dsimp only
    rw [h1, h2, if_neg (by omega)]
    have hnone : s.rest[s.rest.length + 1]? = none := by
      rw [List.getElem?_eq_none]; omega
    rw [hnone]
  · rw [insert_plain v hc]
    dsimp only
    rw [Arena.get]
    have h3 : (s.next + 1) % U32 = s.next + 1 := mod_u32_small hn
    dsimp only
    rw [h3, h2, if_pos rfl]
    exact hhi (s.next + 1) (Nat.le_refl _) (by omega)

theorem insert_id_get_post {T : Type} {N : Nat} {s : ArenaState T}
    (hInv : ArenaInv N s) (hN : N + 2 < U32) (hr : s.rest.length + 1 < U32) (v : T) :
    Arena.get (Arena.insert N s v).1 (Arena.insert N s v).2 = some v := by
  have hn : s.next + 1 < U32 := by have := hInv.nle; omega
  by_cases hc : s.next + 1 > N
  · rw [insert_rotate v hc]
    dsimp only
    rw [Arena.get]
    have h1 : (s.rest.length + 1) % U32 = s.rest.length + 1 := mod_u32_small hr
    have h3 : (s.next + 1) % U32 = s.next + 1 := mod_u32_small hn
    dsimp only
    rw [h3, List.length_append]
    simp only [List.length_cons, List.length_nil, h1]
    simp
  · rw [insert_plain v hc]
    dsimp only
    rw [Arena.get]
    have h2 : s.rest.length % U32 = s.rest.length := mod_u32_small (by omega)
    have h3 : (s.next + 1) % U32 = s.next + 1 := mod_u32_small hn
    dsimp only
    rw [h3, h2, if_pos rfl, if_pos rfl]

theorem insert_preserves_get {T : Type} {N : Nat} {s : ArenaState T}
    (hInv : ArenaInv N s) (hN : N + 2 < U32) (hr : s.rest.length + 1 < U32) (v : T)
    {id : ArenaId} {w : T} (h : Arena.get s id = some w) :
    Arena.get (Arena.insert N s v).1 id = some w := by
  have hn : s.next + 1 < U32 := by have := hInv.nle; omega
  have h2 : s.rest.length % U32 = s.rest.length := mod_u32_small (by omega)
  have hhi := hInv.hi
  rw [Arena.get, h2] at h
  by_cases hc : s.next + 1 > N
  · rw [insert_rotate v hc]
    dsimp only
    rw [Arena.get]
    dsimp only
    have h1 : (s.rest.length + 1) % U32 = s.rest.length + 1 := mod_u32_small hr
    rw [List.length_append]
    simp only [List.length_cons, List.length_nil, h1]
    by_cases hseg : id.seg = s.rest.length
    · rw [if_pos hseg] at h
      rw [if_neg (by omega), hseg, List.getElem?_concat_length]
      exact h
    · rw [if_neg hseg] at h
      have hlt : id.seg < s.rest.length := by
        by_contra hge
        have hnone : s.rest[id.seg]? = none := by
          rw [List.getElem?_eq_none]; omega
        rw [hnone] at h
        exact Option.noConfusion h
      rw [if_neg (by omega), List.getElem?_append_left hlt]
      exact h
  · rw [insert_plain v hc]
    dsimp only
    rw [Arena.get]
    dsimp only
    rw [h2]
    by_cases hseg : id.seg = s.rest.length
    · rw [if_pos hseg] at h
      rw [if_pos hseg]
      have hidx : id.idx ≠ s.next + 1 := by
        intro heq
        rw [heq, hhi (s.next + 1) (Nat.le_refl _) (by omega)] at h
        exact Option.noConfusion h
      simp only [hidx, if_false]
      exact h
    · rw [if_neg hseg] at h
      rw [if_neg hseg]
      exact h

theorem insertList_spec {T : Type} (N : Nat) (hN : N + 2 < U32) :
    ∀ (vs : List T) (s : ArenaState T), ArenaInv N s →
      s.rest.length + vs.length < U32 →
      (insertList N s vs).2.length = vs.length ∧
      ArenaInv N (insertList N s vs).1 ∧
      (insertList N s vs).1.rest.length ≤ s.rest.length + vs.length ∧
      (∀ id w, Arena.get s id = some w → Arena.get (insertList N s vs).1 id = some w) ∧
      (∀ i, i < vs.length → ∃ id, (insertList N s vs).2[i]? = some id ∧
        Arena.get (insertList N s vs).1 id = vs[i]?) ∧
      (∀ id w, Arena.get s id = some w → id ∉ (insertList N s vs).2) ∧
      (insertList N s vs).2.Nodup
  | [], s, hInv, hb => by
      refine ⟨rfl, hInv, by simp [insertList], ?_, ?_, ?_, ?_⟩
      · intro id w h; simpa [insertList] using h
      · intro i hi; exact absurd hi (by simp)
      · intro id w _h; simp [insertList]
      · simp [insertList]
  | v :: vs, s, hInv, hb => by
      have hr : s.rest.length + 1 < U32 := by
        simp only [List.length_cons] at hb; omega
      have hInv' : ArenaInv N (Arena.insert N s v).1 := insert_inv hInv v
      have hb' : (Arena.insert N s v).1.rest.length + vs.length < U32 := by
        have := insert_rest_le N s v
        simp only [List.length_cons] at hb; omega
      obtain ⟨ihlen, ihinv, ihrest, ihpres, ihidx, ihnm, ihnd⟩ :=
        insertList_spec N hN vs (Arena.insert N s v).1 hInv' hb'
      have hpost : Arena.get (Arena.insert N s v).1 (Arena.insert N s v).2 = some v :=
        insert_id_get_post hInv hN hr v
      have hpre : Arena.get s (Arena.insert N s v).2 = none :=
        insert_id_get_pre hInv hN hr v
      have hstep : ∀ id w, Arena.get s id = some w →
          Arena.get (Arena.insert N s v).1 id = some w :=
        fun id w h => insert_preserves_get hInv hN hr v h
      refine ⟨?_, ?_, ?_, ?_, ?_, ?_, ?_⟩
      · simp [insertList, ihlen]
      · simpa [insertList] using ihinv
      · have := insert_rest_le N s v
        simp only [insertList, List.length_cons]; omega
      · intro id w h
        simp only [insertList]
        exact ihpres id w (hstep id w h)
      · intro i hi
        match i with
        | 0 =>
          refine ⟨(Arena.insert N s v).2, by simp [insertList], ?_⟩
          simp only [insertList, List.getElem?_cons_zero]
          exact ihpres _ _ hpost
        | Nat.succ j =>
          have hj : j < vs.length := by
            simp only [List.length_cons] at hi; omega
          obtain ⟨id, hget, hval⟩ := ihidx j hj
          refine ⟨id, ?_, ?_⟩
          · simp only [insertList, List.getElem?_cons_succ]
            exact hget
          · simp only [insertList, List.getElem?_cons_succ]
            exact hval
      · intro id w h
        simp only [insertList, List.mem_cons]
        rintro (rfl | hmem)
        · rw [h] at hpre; exact Option.noConfusion hpre
        · exact ihnm id w (hstep id w h) hmem
      · simp only [insertList, List.nodup_cons]
        exact ⟨ihnm _ _ hpost, ihnd⟩

/-- C1: evaluation of the arena at the failing input — capacity 4, the
seven values 0..6 inserted in order, then `get` on each returned id (the
repo's own `bruh` test).  The seven ids are pairwise distinct and carry
the in-segment slots 1, 3, 5, 1, 3, 5, 1, so the third and sixth ids index
slot 5 of a 4-slot segment: with the `[T; 4]` allocation bound enforced
their reads are out of bounds and have no defined value (`getChecked`
yields `none` for exactly those two positions), so the claimed in-order
round-trip of all seven values is not a defined property of the program.
The final conjunct shows where the test's apparent success comes from:
the raw pointer-arithmetic read (`Arena.get`) does return every inserted
value, but only because the model gives the out-of-bounds cells written
by the rollover inserts private storage — in the source those are
out-of-bounds raw-pointer writes and reads whose behavior is undefined
and allocator-dependent. -/
theorem arena_rollover_oob_failing :
    ((insertList 4 (ArenaState.fresh Nat) [0,1,2,3,4,5,6]).2.map ArenaId.idx
       = [1, 3, 5, 1, 3, 5, 1]) ∧
    (insertList 4 (ArenaState.fresh Nat) [0,1,2,3,4,5,6]).2.Nodup ∧
    ¬ (5 < 4) ∧
    ((insertList 4 (ArenaState.fresh Nat) [0,1,2,3,4,5,6]).2.map
        (fun id => Arena.getChecked 4
          (insertList 4 (ArenaState.fresh Nat) [0,1,2,3,4,5,6]).1 id)
       = [some 0, some 1, none, some 3, some 4, none, some 6]) ∧
    ((insertList 4 (ArenaState.fresh Nat) [0,1,2,3,4,5,6]).2.map
        (fun id => Arena.get
          (insertList 4 (ArenaState.fresh Nat) [0,1,2,3,4,5,6]).1 id)
       = [some 0, some 1, some 2, some 3, some 4, some 5, some 6]) :=
  ⟨by decide, by decide, by decide, by decide, by decide⟩

/-- C2: evaluation of `Arena::insert` at a concrete failing input.  Three
sequential inserts into a fresh capacity-4 arena hand out in-segment slot
indices 1, 3, 5: slot 0 (and 2) of the first segment generation is handed to
no caller, and the third insert records slot 5, which is outside `[0, 4)` —
contradicting the claim that the slots handed out per segment generation are
exactly the integers in `[0, N)`.  (The recorded segment indices are 0, 0, 1,
matching the segments written, so the second half of the claim holds
sequentially; the slot-index half fails.) -/
theorem arena_slot_assignment_failing :
    ((insertList 4 (ArenaState.fresh Nat) [10,20,30]).2.map ArenaId.idx = [1, 3, 5]) ∧
    ((insertList 4 (ArenaState.fresh Nat) [10,20,30]).2.map ArenaId.seg = [0, 0, 1]) ∧
    ¬ (5 < 4) :=
  ⟨by decide, by decide, by decide⟩

/-- C3: evaluation of `Drop for Arena` at concrete failing inputs.  After a
single insert into a fresh capacity-4 arena, slot (0,0) was never claimed
(`cellAt` is `none`) yet it is among the slots on which `drop` runs
`drop_in_place`; and after seven inserts, slot (1,5) was claimed (it holds the
third inserted value, 2) yet it is not among the dropped slots, because the
drop loops run over `0..N` only. -/
theorem arena_drop_unclaimed_failing :
    ((0, 0) ∈ Arena.dropTargets 4 (insertList 4 (ArenaState.fresh Nat) [(42 : Nat)]).1 ∧
     Arena.cellAt (insertList 4 (ArenaState.fresh Nat) [(42 : Nat)]).1 0 0 = none) ∧
    (Arena.cellAt (insertList 4 (ArenaState.fresh Nat) [0,1,2,3,4,5,6]).1 1 5 = some 2 ∧
     (1, 5) ∉ Arena.dropTargets 4 (insertList 4 (ArenaState.fresh Nat) [0,1,2,3,4,5,6]).1) :=
  ⟨⟨by decide, by decide⟩, ⟨by decide, by decide⟩⟩

/-! ## Source cache (`src/parse/src/span.rs`)

`FileCache` owns an `Arena<Source, 8>` and an `RwLock<HashMap<PathBuf,
Id<Source>>>`.  `resolve` takes the write lock for the whole call, so the
sequential model below is the single-critical-section semantics of the
source.  The ambient filesystem is modelled as a function from paths to
`Except` (`std::fs::read_to_string` returning `Ok(String)` or a typed
`io::Error`); an `ariadne::Source` is modelled by the file content it is
built from.  Each call is tagged with the event it performed: `hit` (map
lookup succeeded, no I/O), `readOk` (file read, entry created) or
`readErr` (file read attempted and failed, nothing stored). -/

/-- What one `resolve` call did: cache hit (no I/O), successful read (one
read, one new `Source` entry), or failed read (one read, no entry). -/
inductive REvent
  | hit | readOk | readErr
deriving DecidableEq, Repr

/-- `HashMap<PathBuf, Id<Source>>` modelled as an association list; later
bindings shadow earlier ones (irrelevant here: `resolve` only inserts a key
that is absent). -/
def lookupPath (m : List (String × ArenaId)) (p : String) : Option ArenaId :=
  match m.find? (fun e => e.1 == p) with
  | some e => some e.2
  | none => none

/-- State of `FileCache`: the `Arena<Source, 8>` and the path map. -/
structure FileCacheState where
  files : ArenaState String
  paths : List (String × ArenaId)

/-- `FileCache::new()`. -/
def FileCacheState.empty : FileCacheState :=
  { files := ArenaState.fresh String, paths := [] }

/-- `FileCache::resolve`: under the write lock, look the path up; on a hit
return the stored id (no I/O); on a miss read the file — propagating a read
error with `?` before anything is stored — then insert the content into the
arena, record the path binding and return the new id. -/
def FileCache.resolve (fs : String → Except String String) (st : FileCacheState)
    (p : String) : Except String ArenaId × FileCacheState × REvent :=
  match lookupPath st.paths p with
  | some id => (Except.ok id, st, REvent.hit)
  | none =>
    match fs p with
    | Except.error e => (Except.error e, st, REvent.readErr)
    | Except.ok str =>
      let r := Arena.insert 8 st.files str
      (Except.ok r.2, { files := r.1, paths := (p, r.2) :: st.paths }, REvent.readOk)

/-- A sequence of `resolve` calls, returning the final state and the event
performed by each call, tagged with its path. -/
def resolveList (fs : String → Except String String) :
    FileCacheState → List String → FileCacheState × List (String × REvent)
  | st, [] => (st, [])
  | st, p :: ps =>
    let r := FileCache.resolve fs st p
    let q := resolveList fs r.2.1 ps
    (q.1, (p, r.2.2) :: q.2)

/-- Number of `Source` entries ever created for path `p` along a trace. -/
def entriesFor (tr : List (String × REvent)) (p : String) : Nat :=
  (tr.filter (fun e => e.1 == p && e.2 == REvent.readOk)).length

theorem resolve_hit {fs : String → Except String String} {st : FileCacheState}
    {p : String} {id : ArenaId} (h : lookupPath st.paths p = some id) :
    FileCache.resolve fs st p = (Except.ok id, st, REvent.hit) := by
  unfold FileCache.resolve
  rw [h]

theorem lookupPath_cons_self (m : List (String × ArenaId)) (p : String) (id : ArenaId) :
    lookupPath ((p, id) :: m) p = some id := by
  unfold lookupPath
  rw [List.find?_cons_of_pos]
  simp

theorem resolve_ok_lookup {fs : String → Except String String} {st : FileCacheState}
    {p : String} {id : ArenaId} {st' : FileCacheState} {e : REvent}
    (h : FileCache.resolve fs st p = (Except.ok id, st', e)) :
    lookupPath st'.paths p = some id := by
  unfold FileCache.resolve at h
  cases hl : lookupPath st.paths p with
  | some id0 =>
    rw [hl] at h
    simp only [Prod.mk.injEq, Except.ok.injEq] at h
    obtain ⟨h1, h2, _⟩ := h
    rw [← h2, hl, h1]
  | none =>
    rw [hl] at h
    cases hf : fs p with
    | error err =>
      rw [hf] at h
      simp at h
    | ok str =>
      rw [hf] at h
      simp only [Prod.mk.injEq, Except.ok.injEq] at h
      obtain ⟨h1, h2, _⟩ := h
      rw [← h2]
      dsimp only
      rw [← h1]
      exact lookupPath_cons_self st.paths p _

theorem resolve_preserves_lookup {fs : String → Except String String}
    {st : FileCacheState} {p : String} {id : ArenaId} (q : String)
    (h : lookupPath st.paths p = some id) :
    lookupPath ((FileCache.resolve fs st q).2.1).paths p = some id := by
  unfold FileCache.resolve
  cases hl : lookupPath st.paths q with
  | some id0 => exact h
  | none =>
    cases hf : fs q with
    | error e => exact h
    | ok str =>
      dsimp only
      by_cases hpq : q = p
      · rw [hpq] at hl
        rw [hl] at h
        exact Option.noConfusion h
      · unfold lookupPath at h ⊢
        rw [List.find?_cons_of_neg]
        · exact h
        · simp [hpq]

theorem resolve_memo {fs : String → Except String String} {st : FileCacheState}
    {p : String} {id : ArenaId} {st' : FileCacheState} {e : REvent}
    (h : FileCache.resolve fs st p = (Except.ok id, st', e)) :
    FileCache.resolve fs st' p = (Except.ok id, st', REvent.hit) :=
  resolve_hit (resolve_ok_lookup h)

theorem entriesFor_cons (q : String) (ev : REvent) (tr : List (String × REvent))
    (p : String) :
    entriesFor ((q, ev) :: tr) p =
      (if q == p && ev == REvent.readOk then 1 else 0) + entriesFor tr p := by
  unfold entriesFor
  rw [List.filter_cons]
  by_cases hb : (q == p && ev == REvent.readOk) = true
  · simp [hb]
    omega
  · simp [hb]

theorem entriesFor_resolveList (fs : String → Except String String) :
    ∀ (ps : List String) (st : FileCacheState) (p : String),
      ((lookupPath st.paths p).isSome →
        entriesFor (resolveList fs st ps).2 p = 0) ∧
      entriesFor (resolveList fs st ps).2 p ≤ 1
  | [], st, p => by
      refine ⟨fun _ => rfl, ?_⟩
      show entriesFor [] p ≤ 1
      simp [entriesFor]
  | q :: ps, st, p => by
      have hrec := fun st0 => entriesFor_resolveList fs ps st0 p
      show ((lookupPath st.paths p).isSome →
              entriesFor ((q, (FileCache.resolve fs st q).2.2) ::
                (resolveList fs (FileCache.resolve fs st q).2.1 ps).2) p = 0) ∧
            entriesFor ((q, (FileCache.resolve fs st q).2.2) ::
                (resolveList fs (FileCache.resolve fs st q).2.1 ps).2) p ≤ 1
      rw [entriesFor_cons]
      unfold FileCache.resolve
      cases hl : lookupPath st.paths q with
      | some id0 =>
        dsimp only
        rw [if_neg (by simp)]
        simp only [Nat.zero_add]
        exact hrec st
      | none =>
        cases hf : fs q with
        | error e =>
          dsimp only
          rw [if_neg (by simp)]
          simp only [Nat.zero_add]
          exact hrec st
        | ok str =>
          dsimp only
          by_cases hpq : q = p
          · subst hpq
            rw [if_pos (by simp)]
            have hsome : (lookupPath
                ({ files := (Arena.insert 8 st.files str).1,
                   paths := (q, (Arena.insert 8 st.files str).2) :: st.paths } :
                  FileCacheState).paths q).isSome := by
              dsimp only
              rw [lookupPath_cons_self]
              rfl
            have h0 := (hrec _).1 hsome
            rw [h0]
            constructor
            · intro habs
              rw [hl] at habs
              simp at habs
            · omega
          · rw [if_neg (by simp [hpq])]
            simp only [Nat.zero_add]
            have hview : lookupPath
                ({ files := (Arena.insert 8 st.files str).1,
                   paths := (q, (Arena.insert 8 st.files str).2) :: st.paths } :
                  FileCacheState).paths p = lookupPath st.paths p := by
              dsimp only
              unfold lookupPath
              rw [List.find?_cons_of_neg]
              simp [hpq]
            refine ⟨fun hs => ?_, (hrec _).2⟩
            refine (hrec _).1 ?_
            rw [hview]
            exact hs

/-- C5: path memoization of `FileCache::resolve`.  (1) A resolve of a path
already in the map returns the stored id, leaves the cache unchanged and
performs no read; (2) after any successful resolve, resolving the same path
again returns the identical id with no I/O and no state change; (3) the
binding of a path survives any later resolve call (of any path); (4) over
any sequence of resolve calls starting from a fresh cache, at most one
`Source` entry is ever created per distinct path. -/
theorem filecache_memoization :
    (∀ (fs : String → Except String String) (st : FileCacheState) (p : String)
        (id : ArenaId), lookupPath st.paths p = some id →
      FileCache.resolve fs st p = (Except.ok id, st, REvent.hit)) ∧
    (∀ (fs : String → Except String String) (st : FileCacheState) (p : String)
        (id : ArenaId) (st' : FileCacheState) (e : REvent),
      FileCache.resolve fs st p = (Except.ok id, st', e) →
      FileCache.resolve fs st' p = (Except.ok id, st', REvent.hit)) ∧
    (∀ (fs : String → Except String String) (st : FileCacheState) (p : String)
        (id : ArenaId) (q : String), lookupPath st.paths p = some id →
      lookupPath ((FileCache.resolve fs st q).2.1).paths p = some id) ∧
    (∀ (fs : String → Except String String) (ps : List String) (p : String),
      entriesFor (resolveList fs FileCacheState.empty ps).2 p ≤ 1) := by
  refine ⟨?_, ?_, ?_, ?_⟩
  · intro fs st p id h
    exact resolve_hit h
  · intro fs st p id st' e h
    exact resolve_memo h
  · intro fs st p id q h
    exact resolve_preserves_lookup q h
  · intro fs ps p
    exact (entriesFor_resolveList fs ps FileCacheState.empty p).2

/-- Witness for C5: after one successful resolve of path "a" from the empty
cache (with a filesystem answering "hello"), resolving "a" again returns the
identical id `(seg 0, idx 1)`, the unchanged state, and performs no read. -/
theorem filecache_memoization_witness :
    FileCache.resolve (fun _ => Except.ok ("hello"))
        ((FileCache.resolve (fun _ => Except.ok ("hello"))
          FileCacheState.empty ("a")).2.1) ("a")
      = (Except.ok ⟨0, 1⟩,
         (FileCache.resolve (fun _ => Except.ok ("hello"))
           FileCacheState.empty ("a")).2.1,
         REvent.hit) :=
  filecache_memoization.2.1 (fun _ => Except.ok ("hello")) FileCacheState.empty
    ("a") ⟨0, 1⟩
    ((FileCache.resolve (fun _ => Except.ok ("hello")) FileCacheState.empty ("a")).2.1)
    REvent.readOk rfl

/-- C6: if the read fails during `resolve`, the I/O error is returned to the
caller as a typed failure and the cache state is unchanged — no path mapping
and no `Source` entry is stored — so a later resolve of the same path against
a filesystem where the file now reads successfully performs the read and
succeeds (nothing was cached for the path). -/
theorem filecache_error_propagation :
    ∀ (fs : String → Except String String) (st : FileCacheState) (p : String)
      (e : String), lookupPath st.paths p = none → fs p = Except.error e →
      FileCache.resolve fs st p = (Except.error e, st, REvent.readErr) ∧
      ∀ (fs2 : String → Except String String) (str : String),
        fs2 p = Except.ok str →
        ∃ id st2, FileCache.resolve fs2 st p = (Except.ok id, st2, REvent.readOk) := by
  intro fs st p e hl hf
  constructor
  · unfold FileCache.resolve
    rw [hl, hf]
  · intro fs2 str hf2
    unfold FileCache.resolve
    rw [hl, hf2]
    exact ⟨_, _, rfl⟩

/-- Witness for C6 at a concrete failing filesystem: resolving "a" from the
empty cache when every read fails with "no such file" returns that error and
leaves the cache empty. -/
theorem filecache_error_propagation_witness :
    FileCache.resolve (fun _ => Except.error ("no such file"))
        FileCacheState.empty ("a")
      = (Except.error ("no such file"), FileCacheState.empty, REvent.readErr) :=
  (filecache_error_propagation (fun _ => Except.error ("no such file"))
    FileCacheState.empty ("a") ("no such file") rfl rfl).1

/-! ## Tokenizer (`src/parse/src/lexer.rs`)

The lexer is a chumsky parser over characters.  Each lexical rule is
embedded as a PEG-style function from the remaining input (a character
list) to an optional value and remaining suffix, matching chumsky's
ordered-choice-with-backtracking semantics for the combinators the source
uses.  The token type follows the constructors `lexer.rs` produces (the
`Token` enum in the crate's `token.rs` is a stale snapshot that lacks
several of them).  Interned strings are modelled by their content. -/

inductive Op
  | Eq | Neq | Lt | Gt | Leq | Geq
  | Add | Sub | Mul | Div | Mod
  | And | Or | Not
  | Concat
deriving DecidableEq, Repr

inductive Symbol
  | Dot | Colon | DoubleColon | RArrow | LArrow | FatArrow
  | Optional | Pipe | Backslash | Comma | Bang
deriving DecidableEq, Repr

inductive Delim
  | Paren | Bracket | Brace
deriving DecidableEq, Repr

inductive Keyword
  | Fn | TypeKw | Import | Struct | Enum | SelfParam | SelfType
  | Let | Match | With | As | If | Then | Else | For | In
  | While | Loop | Break | Continue | Return
deriving DecidableEq, Repr

inductive Token
  | Int (n : Nat)
  | Float (text : String)
  | String (s : String)
  | Char (c : Char)
  | Ident (s : String)
  | Op (o : Op)
  | Symbol (y : Symbol)
  | Keyword (k : Keyword)
  | Open (d : Delim)
  | Close (d : Delim)
  | Assign (o : Option Op)
  | Indent (n : Nat)
  | Newline
  | Wildcard
  | Error (s : String)
deriving DecidableEq, Repr

/-- A PEG-style parser: on success, the parsed value and the remaining
input suffix. -/
abbrev P (α : Type) : Type := List Char → Option (α × List Char)

/-- chumsky `a.or(b)`: try `a`; on failure rewind and try `b`. -/
def orP {α : Type} (p q : P α) : P α := fun s =>
  match p s with
  | some r => some r
  | none => q s

/-- chumsky `choice((p1, p2, ...))`: ordered choice. -/
def firstOf {α : Type} : List (P α) → P α
  | [] => fun _ => none
  | p :: ps => orP p (firstOf ps)

def matchLit : List Char → P Unit
  | [], s => some ((), s)
  | _ :: _, [] => none
  | c :: cs, d :: s => if c = d then matchLit cs s else none

/-- chumsky `just(str).to(v)`. -/
def litV {α : Type} (str : String) (v : α) : P α := fun s =>
  match matchLit (str.toList) s with
  | some (_, r) => some (v, r)
  | none => none

def quoteChar : Char := Char.ofNat 34

def backslashChar : Char := Char.ofNat 92

def tickChar : Char := Char.ofNat 39

def spaceChar : Char := Char.ofNat 32

/-- First character of chumsky's unicode `ident()` (XID_Start or an
underscore), restricted to ASCII — sufficient for every input considered
here. -/
def isIdentStart (c : Char) : Bool := c.isAlpha || c = '_'

/-- Continuation character of `ident()` (XID_Continue), ASCII subset. -/
def isIdentCont (c : Char) : Bool := c.isAlphanum || c = '_'

/-- The reserved-word table of the `word` rule (lexer.rs lines 99-123):
anything not in the table becomes an (interned) identifier token. -/
def keywordOf (s : String) : Token :=
  if s = "fn" then Token.Keyword Keyword.Fn
  else if s = "type" then Token.Keyword Keyword.TypeKw
  else if s = "import" then Token.Keyword Keyword.Import
  else if s = "struct" then Token.Keyword Keyword.Struct
  else if s = "enum" then Token.Keyword Keyword.Enum
  else if s = "self" then Token.Keyword Keyword.SelfParam
  else if s = "Self" then Token.Keyword Keyword.SelfType
  else if s = "let" then Token.Keyword Keyword.Let
  else if s = "match" then Token.Keyword Keyword.Match
  else if s = "with" then Token.Keyword Keyword.With
  else if s = "as" then Token.Keyword Keyword.As
  else if s = "if" then Token.Keyword Keyword.If
  else if s = "then" then Token.Keyword Keyword.Then
  else if s = "else" then Token.Keyword Keyword.Else
  else if s = "for" then Token.Keyword Keyword.For
  else if s = "in" then Token.Keyword Keyword.In
  else if s = "while" then Token.Keyword Keyword.While
  else if s = "loop" then Token.Keyword Keyword.Loop
  else if s = "break" then Token.Keyword Keyword.Break
  else if s = "continue" then Token.Keyword Keyword.Continue
  else if s = "return" then Token.Keyword Keyword.Return
  else if s = "_" then Token.Wildcard
  else Token.Ident s

/-- The `word` rule: `ident()` (one start character, then the longest run
of continuation characters) mapped through the reserved-word table. -/
def pWord : P Token := fun s =>
  match s with
  | [] => none
  | c :: rest =>
    if isIdentStart c then
      some (keywordOf (String.mk (c :: rest.takeWhile isIdentCont)),
            rest.dropWhile isIdentCont)
    else none

/-- The escape table shared by string and char literals:
backslash, slash, quote, b, r, n, t. -/
def escapeChar (c : Char) : Option Char :=
  if c = backslashChar then some backslashChar
  else if c = '/' then some '/'
  else if c = quoteChar then some quoteChar
  else if c = 'b' then some (Char.ofNat 8)
  else if c = 'r' then some (Char.ofNat 13)
  else if c = 'n' then some (Char.ofNat 10)
  else if c = 't' then some (Char.ofNat 9)
  else none

/-- Body of a string literal after the opening quote:
`none_of("\\\"").or(escape)` repeated, then the closing quote.  Returns
the decoded content and the suffix after the closing quote; fails on an
invalid escape or a missing closing quote. -/
def strBody : List Char → Option (List Char × List Char)
  | [] => none
  | c :: rest =>
    if c = quoteChar then some ([], rest)
    else if c = backslashChar then
      match rest with
      | [] => none
      | d :: rest2 =>
        match escapeChar d with
        | some e =>
          match strBody rest2 with
          | some (cs, r) => some (e :: cs, r)
          | none => none
        | none => none
    else
      match strBody rest with
      | some (cs, r) => some (c :: cs, r)
      | none => none

/-- The `string` rule. -/
def pStringLit : P Token := fun s =>
  match s with
  | c :: rest =>
    if c = quoteChar then
      match strBody rest with
      | some (cs, r) => some (Token.String (String.mk cs), r)
      | none => none
    else none
  | [] => none

/-- The `char` rule: tick, one `none_of("\\\'")` or escape, tick. -/
def pCharLit : P Token := fun s =>
  match s with
  | c0 :: rest =>
    if c0 = tickChar then
      match rest with
      | [] => none
      | c :: rest2 =>
        if c = backslashChar then
          match rest2 with
          | d :: rest3 =>
            match escapeChar d with
            | some e =>
              match rest3 with
              | q :: rest4 =>
                if q = tickChar then some (Token.Char e, rest4) else none
              | [] => none
            | none => none
          | [] => none
        else if c = tickChar then none
        else
          match rest2 with
          | q :: rest3 =>
            if q = tickChar then some (Token.Char c, rest3) else none
          | [] => none
    else none
  | [] => none

/-- chumsky `text::int(10)`: the single digit 0, or a nonzero digit
followed by any run of digits (no leading zeros). -/
def pDigits : P (List Char) := fun s =>
  match s with
  | c :: rest =>
    if c = '0' then some (['0'], rest)
    else if c.isDigit then
      some (c :: rest.takeWhile Char.isDigit, rest.dropWhile Char.isDigit)
    else none
  | [] => none

/-- The `float` rule: digits, a dot, digits.  The source parses the text
into an f64, which cannot fail on this shape; the token here carries the
matched text in place of the float value (no claim concerns the value). -/
def pFloat : P Token := fun s =>
  match pDigits s with
  | some (d1, r1) =>
    match r1 with
    | c :: r2 =>
      if c = '.' then
        match pDigits r2 with
        | some (d2, r3) => some (Token.Float (String.mk (d1 ++ '.' :: d2)), r3)
        | none => none
      else none
    | [] => none
  | none => none

def digitsToNat (ds : List Char) : Nat :=
  ds.foldl (fun acc c => acc * 10 + (c.toNat - 48)) 0

/-- i64::MAX: `v.parse::<i64>()` on a digit string fails exactly when the
value exceeds it, in which case the int rule yields an error token carrying
the digit text. -/
def I64MAX : Nat := 9223372036854775807

/-- The `int` rule: digits, an ignored optional trailing i, with overflow
mapped to an error token. -/
def pInt : P Token := fun s =>
  match pDigits s with
  | some (ds, r1) =>
    let r2 := match r1 with
              | c :: rest => if c = 'i' then rest else r1
              | [] => r1
    if digitsToNat ds ≤ I64MAX then some (Token.Int (digitsToNat ds), r2)
    else some (Token.Error (String.mk ds), r2)
  | none => none

/-- The `arithmetic` choice. -/
def pArith : P Op :=
  firstOf [litV ("+") Op.Add, litV ("-") Op.Sub, litV ("*") Op.Mul,
           litV ("/") Op.Div, litV ("%") Op.Mod]

/-- The `concat` rule. -/
def pConcat : P Op := litV ("..") Op.Concat

/-- The `comparison` choice, in source order. -/
def pComparison : P Op :=
  firstOf [litV ("!=") Op.Neq, litV ("==") Op.Eq, litV ("<=") Op.Leq,
           litV (">=") Op.Geq, litV (">") Op.Gt, litV ("<") Op.Lt]

/-- The `logical` choice, in source order. -/
def pLogical : P Op :=
  firstOf [litV ("not") Op.Not, litV ("and") Op.And, litV ("or") Op.Or]

/-- The `op` rule: concat, arithmetic, comparison, logical. -/
def pOp : P Token := fun s =>
  match firstOf [pConcat, pArith, pComparison, pLogical] s with
  | some (o, r) => some (Token.Op o, r)
  | none => none

/-- The `assign` rule: `arithmetic.or(concat).or_not().then_ignore(just('='))`.
If the optional operator matched but no equals sign follows, the whole rule
fails (chumsky commits to a succeeded alternative). -/
def pAssign : P Token := fun s =>
  match orP pArith pConcat s with
  | some (o, r) =>
    match r with
    | c :: r2 => if c = '=' then some (Token.Assign (some o), r2) else none
    | [] => none
  | none =>
    match s with
    | c :: r2 => if c = '=' then some (Token.Assign none, r2) else none
    | [] => none

/-- The `sym` choice, in source order. -/
def pSym : P Token := fun s =>
  match firstOf [litV ("::") Symbol.DoubleColon, litV (":") Symbol.Colon,
                 litV ("->") Symbol.RArrow, litV ("<-") Symbol.LArrow,
                 litV ("=>") Symbol.FatArrow, litV ("?") Symbol.Optional,
                 litV ("|") Symbol.Pipe, litV ("\\") Symbol.Backslash,
                 litV (",") Symbol.Comma] s with
  | some (y, r) => some (Token.Symbol y, r)
  | none => none

/-- The `sym2` choice (lower-priority symbols checked after ops). -/
def pSym2 : P Token := fun s =>
  match firstOf [litV (".") Symbol.Dot, litV ("!") Symbol.Bang] s with
  | some (y, r) => some (Token.Symbol y, r)
  | none => none

/-- The `delim` choice. -/
def pDelim : P Token :=
  firstOf [litV ("(") (Token.Open Delim.Paren), litV (")") (Token.Close Delim.Paren),
           litV ("[") (Token.Open Delim.Bracket), litV ("]") (Token.Close Delim.Bracket),
           litV ("\x7b") (Token.Open Delim.Brace), litV ("\x7d") (Token.Close Delim.Brace)]

/-- The `indent` rule: `just(' ').repeated().count().map(Token::Indent)` —
a run of zero or more spaces; it succeeds on every input, consuming
nothing when no space is present. -/
def pIndent : P Token := fun s =>
  some (Token.Indent (s.takeWhile (fun c => c = spaceChar)).length,
        s.dropWhile (fun c => c = spaceChar))

/-- The fallback `any().map(|c| c.to_string()).map(Token::Error)`. -/
def pAnyErr : P Token := fun s =>
  match s with
  | c :: rest => some (Token.Error (String.mk [c]), rest)
  | [] => none

/-- The token choice of lexer.rs lines 191-199, in source order: word;
string, char; float, int; sym, assign, op, sym2, delim; indent — with the
error fallback as the outer `.or`.  Because the indent alternative accepts
a run of zero spaces, this choice succeeds on every input and the fallback
is unreachable. -/
def tokenCore : P Token :=
  orP (firstOf [pWord, pStringLit, pCharLit, pFloat, pInt, pSym, pAssign,
                pOp, pSym2, pDelim, pIndent]) pAnyErr

/-- Rust `char::is_whitespace`, used by chumsky's `padded()`. -/
def isRustWhitespace (c : Char) : Bool :=
  (9 ≤ c.toNat && c.toNat ≤ 13) || c.toNat = 32 || c.toNat = 133 ||
  c.toNat = 160 || c.toNat = 5760 || (8192 ≤ c.toNat && c.toNat ≤ 8202) ||
  c.toNat = 8232 || c.toNat = 8233 || c.toNat = 8239 || c.toNat = 8287 ||
  c.toNat = 12288

/-- Characters at which chumsky's `newline()` can start; `newline().not()`
inside the comment rule stops at exactly these. -/
def isNewlineChar (c : Char) : Bool :=
  c.toNat = 10 || c.toNat = 13 || c.toNat = 11 || c.toNat = 12 ||
  c.toNat = 133 || c.toNat = 8232 || c.toNat = 8233

mutual

/-- The trivia around each token: the whitespace of the two `padded()`
layers plus the repeated padded # comments of `padded_by(comment)`,
composed into one skip (the composition is the greedy run of whitespace
and #-to-end-of-line comments). -/
def skipTrivia : List Char → List Char
  | [] => []
  | c :: rest =>
    if isRustWhitespace c then skipTrivia rest
    else if c = '#' then skipComment rest
    else c :: rest

/-- Rest of a # comment: everything up to the next newline start; the
newline character itself is whitespace and is consumed as padding. -/
def skipComment : List Char → List Char
  | [] => []
  | c :: rest =>
    if isNewlineChar c then skipTrivia rest else skipComment rest

end

/-- The stream of spanned tokens the scan emits, observed for `fuel`
iterations of the repeated padded token element: each iteration skips
trivia, runs the token choice (recording the span as offsets from the
start of an input of total length `N0`) and continues on the remaining
suffix.  The iteration of the source only stops when the choice fails —
which never happens — so the fuel bounds how much of the stream is
observed. -/
def lexTrace (N0 : Nat) : Nat → List Char → List (Token × Nat × Nat)
  | 0, _ => []
  | fuel + 1, s =>
    let s1 := skipTrivia s
    match tokenCore s1 with
    | some (tok, s2) =>
      (tok, N0 - s1.length, N0 - s2.length) :: lexTrace N0 fuel s2
    | none => []

/-- The whole lexer parse:
`token.padded_by(comment).repeated().collect().padded().then_ignore(end())`.
`some` is the collected output after the repetition stops and `end()`
accepts; `none` means no output — the repetition still running when the
fuel is exhausted, or `end()` rejecting leftover input. -/
def lexAll (N0 : Nat) : Nat → List Char → Option (List (Token × Nat × Nat))
  | 0, _ => none
  | fuel + 1, s =>
    let s1 := skipTrivia s
    match tokenCore s1 with
    | some (tok, s2) =>
      match lexAll N0 fuel s2 with
      | some toks => some ((tok, N0 - s1.length, N0 - s2.length) :: toks)
      | none => none
    | none => if s1.isEmpty then some [] else none

theorem orP_isSome_left {α : Type} {p : P α} (q : P α) {s : List Char}
    (h : (p s).isSome) : ((orP p q) s).isSome := by
  unfold orP
  cases hp : p s with
  | some r => rfl
  | none => rw [hp] at h; exact absurd h (by simp)

theorem orP_isSome_right {α : Type} (p : P α) {q : P α} {s : List Char}
    (h : (q s).isSome) : ((orP p q) s).isSome := by
  unfold orP
  cases hp : p s with
  | some r => rfl
  | none => exact h

theorem pIndent_isSome (s : List Char) : (pIndent s).isSome := rfl

/-- The token choice succeeds on every input: the indent alternative
matches a run of zero spaces, so the choice can never fail (and the error
fallback can never fire). -/
theorem tokenCore_isSome (s : List Char) : (tokenCore s).isSome := by
  unfold tokenCore
  simp only [firstOf]
  apply orP_isSome_left
  apply orP_isSome_right
  apply orP_isSome_right
  apply orP_isSome_right
  apply orP_isSome_right
  apply orP_isSome_right
  apply orP_isSome_right
  apply orP_isSome_right
  apply orP_isSome_right
  apply orP_isSome_right
  apply orP_isSome_right
  apply orP_isSome_left
  exact pIndent_isSome s

/-- Because the token choice never fails, the repetition never stops and
`end()` is never reached: the lexer produces no final output on any input,
for any amount of fuel. -/
theorem lexAll_eq_none (N0 : Nat) :
    ∀ (fuel : Nat) (s : List Char), lexAll N0 fuel s = none
  | 0, _ => rfl
  | fuel + 1, s => by
    have hs := tokenCore_isSome (skipTrivia s)
    simp only [lexAll]
    cases h : tokenCore (skipTrivia s) with
    | none => rw [h] at hs; exact absurd hs (by simp)
    | some r =>
      obtain ⟨tok, s2⟩ := r
      dsimp only
      rw [lexAll_eq_none N0 fuel s2]

/-- At the suffix starting with the unrecognized character, every iteration
emits a zero-width indent marker and stays in place: every token of any
observed trace from this suffix is the zero indent. -/
theorem lexTrace_stuck_all (N0 : Nat) (p : Token × Nat × Nat → Bool)
    (hp : ∀ a b, p (Token.Indent 0, a, b) = true) :
    ∀ fuel, ((lexTrace N0 fuel (String.toList ("@ \"y\""))).all p) = true
  | 0 => rfl
  | fuel + 1 => by
    have hstep : tokenCore (skipTrivia (String.toList ("@ \"y\""))) =
        some (Token.Indent 0, String.toList ("@ \"y\"")) := by decide
    simp only [lexTrace, hstep, List.all_cons]
    rw [lexTrace_stuck_all N0 p hp fuel, hp]
    rfl

/-- At the end of the input the situation is the same: the indent
alternative matches zero spaces at EOF, so the trace from the empty
suffix is an endless run of zero-width indent markers. -/
theorem lexTrace_nil_all (N0 : Nat) (p : Token × Nat × Nat → Bool)
    (hp : ∀ a b, p (Token.Indent 0, a, b) = true) :
    ∀ fuel, ((lexTrace N0 fuel ([] : List Char)).all p) = true
  | 0 => rfl
  | fuel + 1 => by
    have hstep : tokenCore (skipTrivia ([] : List Char)) =
        some (Token.Indent 0, ([] : List Char)) := by decide
    simp only [lexTrace, hstep, List.all_cons]
    rw [lexTrace_nil_all N0 p hp fuel, hp]
    rfl

/-- C4: evaluation of the lexer at the failing input `"x" @ "y"`.  At the
offset of the unrecognized character, the token choice yields a zero-width
indent token instead of the error fallback (first conjunct), so the scan
makes no progress there: the whole parse never yields an output, for any
amount of fuel (second conjunct), and no error token for the at sign — and
in particular not the claimed three-token result — ever appears in the
emitted stream (third conjunct). -/
theorem lexer_resilience_failing :
    (tokenCore (String.toList ("@ \"y\""))
      = some (Token.Indent 0, String.toList ("@ \"y\""))) ∧
    (∀ fuel, lexAll 9 fuel (String.toList ("\"x\" @ \"y\"")) = none) ∧
    (∀ fuel, ((lexTrace 9 fuel (String.toList ("\"x\" @ \"y\""))).all
      (fun t => decide (t.1 ≠ Token.Error ("@")))) = true) := by
  refine ⟨by decide, fun fuel => lexAll_eq_none 9 fuel _, ?_⟩
  intro fuel
  match fuel with
  | 0 => rfl
  | f + 1 =>
    have hstep : tokenCore (skipTrivia (String.toList ("\"x\" @ \"y\""))) =
        some (Token.String ("x"), String.toList (" @ \"y\"")) := by decide
    simp only [lexTrace, hstep, List.all_cons]
    have htail : ∀ f2, ((lexTrace 9 f2 (String.toList (" @ \"y\""))).all
        (fun t => decide (t.1 ≠ Token.Error ("@")))) = true := by
      intro f2
      match f2 with
      | 0 => rfl
      | f3 + 1 =>
        have hstep2 : tokenCore (skipTrivia (String.toList (" @ \"y\""))) =
            some (Token.Indent 0, String.toList ("@ \"y\"")) := by decide
        simp only [lexTrace, hstep2, List.all_cons]
        rw [lexTrace_stuck_all 9 _ (fun _ _ => rfl) f3]
        rfl
    rw [htail f]
    rfl

/-- A trace element is a strictly positive indent marker. -/
def isIndentPos (t : Token × Nat × Nat) : Bool :=
  match t.1 with
  | Token.Indent k => decide (0 < k)
  | _ => false

/-- C7: evaluation of the lexer at the failing input consisting of two
leading spaces and the word x.  The whitespace padding that wraps every
token runs before the token choice, so the two spaces are consumed as
padding and no indent marker with positive run length is ever emitted
(first conjunct; the only indent tokens in any trace are the zero-width
ones produced at the stuck end-of-input position).  The concrete trace
(second conjunct) shows the identifier token spanning offsets 2..3 with the
spaces swallowed, followed by the zero-width indent junk. -/
theorem lexer_indent_failing :
    (∀ fuel, ((lexTrace 3 fuel (String.toList ("  x"))).all
      (fun t => !(isIndentPos t))) = true) ∧
    lexTrace 3 2 (String.toList ("  x")) =
      [(Token.Ident ("x"), 2, 3), (Token.Indent 0, 3, 3)] := by
  refine ⟨?_, by decide⟩
  intro fuel
  match fuel with
  | 0 => rfl
  | f + 1 =>
    have hstep : tokenCore (skipTrivia (String.toList ("  x"))) =
        some (Token.Ident ("x"), ([] : List Char)) := by decide
    simp only [lexTrace, hstep, List.all_cons]
    rw [lexTrace_nil_all 3 _ (fun _ _ => rfl) f]
    rfl

/-- C8 counterexample: the standalone word and lexes to an identifier
token, not to the logical operator token Op::And — the word class is
checked before the operator class and the word is not in the reserved
table. -/
theorem logical_words_counterexample :
    (tokenCore (String.toList ("and"))).map Prod.fst = some (Token.Ident ("and")) ∧
    (tokenCore (String.toList ("and"))).map Prod.fst ≠ some (Token.Op Op.And) :=
  ⟨by decide, by decide⟩

/-- C8 amended: each of the standalone words and, or, not lexes to an
interned identifier token (the word class runs first and none of the three
is in the reserved-word table, so the textual alternatives of the logical
operator class are unreachable for standalone words). -/
theorem logical_words_lex_as_idents :
    tokenCore (String.toList ("and")) = some (Token.Ident ("and"), []) ∧
    tokenCore (String.toList ("or")) = some (Token.Ident ("or"), []) ∧
    tokenCore (String.toList ("not")) = some (Token.Ident ("not"), []) :=
  ⟨by decide, by decide, by decide⟩

/-- C9 counterexample: at the input consisting of two equals signs the
tokenizer produces a plain assignment token consuming one character, not
the equality comparison token Op::Eq — the assign class is checked before
the operator class that contains the comparisons. -/
theorem eq_op_counterexample :
    tokenCore (String.toList ("==")) = some (Token.Assign none, ['=']) ∧
    (tokenCore (String.toList ("=="))).map Prod.fst ≠ some (Token.Op Op.Eq) :=
  ⟨by decide, by decide⟩

/-- C9 amended: because the compound-assignment class is checked before
the comparison class, the input of two equals signs lexes as two
plain-assignment tokens (spans 0..1 and 1..2), not as one Op::Eq token. -/
theorem eq_lexes_as_two_assigns :
    lexTrace 2 2 (String.toList ("==")) =
      [(Token.Assign none, 0, 1), (Token.Assign none, 1, 2)] := by decide

/-- Consumption monotonicity: a parser never un-consumes input — the
remaining suffix it returns is never longer than the input it was given. -/
def Shrinks {α : Type} (p : P α) : Prop :=
  ∀ s t r, p s = some (t, r) → r.length ≤ s.length

theorem dropWhile_len_le (f : Char → Bool) (l : List Char) :
    (l.dropWhile f).length ≤ l.length :=
  (List.dropWhile_sublist f).length_le

theorem orP_shrinks {α : Type} {p q : P α} (hp : Shrinks p) (hq : Shrinks q) :
    Shrinks (orP p q) := by
  intro s t r h
  unfold orP at h
  cases hps : p s with
  | some x =>
    rw [hps] at h
    exact hp s t r (hps.trans h)
  | none =>
    rw [hps] at h
    exact hq s t r h

theorem firstOf_shrinks {α : Type} :
    ∀ (ps : List (P α)), (∀ p ∈ ps, Shrinks p) → Shrinks (firstOf ps)
  | [], _ => by
    intro s t r h
    simp [firstOf] at h
  | p :: ps, hall => by
    have h1 : Shrinks p := hall p (List.mem_cons_self p ps)
    have h2 : Shrinks (firstOf ps) :=
      firstOf_shrinks ps (fun q hq => hall q (List.mem_cons_of_mem p hq))
    exact orP_shrinks h1 h2

theorem matchLit_shrinks : ∀ (lit : List Char), Shrinks (matchLit lit)
  | [] => by
    intro s t r h
    simp only [matchLit, Option.some.injEq, Prod.mk.injEq] at h
    rw [← h.2]
  | c :: cs => by
    intro s t r h
    match s with
    | [] => simp [matchLit] at h
    | d :: s2 =>
      simp only [matchLit] at h
      by_cases hcd : c = d
      · rw [if_pos hcd] at h
        have := matchLit_shrinks cs s2 t r h
        simp only [List.length_cons]
        omega
      · rw [if_neg hcd] at h
        exact absurd h (by simp)

theorem litV_shrinks {α : Type} (str : String) (v : α) : Shrinks (litV str v) := by
  intro s t r h
  unfold litV at h
  cases hm : matchLit (str.toList) s with
  | some x =>
    obtain ⟨u, rx⟩ := x
    rw [hm] at h
    simp only [Option.some.injEq, Prod.mk.injEq] at h
    rw [← h.2]
    exact matchLit_shrinks (str.toList) s u rx hm
  | none =>
    rw [hm] at h
    exact absurd h (by simp)

theorem pWord_shrinks : Shrinks pWord := by
  intro s t r h
  unfold pWord at h
  match s with
  | [] =>
    dsimp only at h
    exact Option.noConfusion h
  | c :: rest =>
    dsimp only at h
    by_cases hs : isIdentStart c
    · rw [if_pos hs] at h
      simp only [Option.some.injEq, Prod.mk.injEq] at h
      rw [← h.2]
      have := dropWhile_len_le isIdentCont rest
      simp only [List.length_cons]
      omega
    · rw [if_neg hs] at h
      exact Option.noConfusion h

theorem strBody_shrinks : ∀ (s cs r : List Char),
    strBody s = some (cs, r) → r.length ≤ s.length
  | [], cs, r => by
    intro h
    simp [strBody] at h
  | c :: rest, cs, r => by
    intro h
    unfold strBody at h
    by_cases h1 : c = quoteChar
    · rw [if_pos h1] at h
      simp only [Option.some.injEq, Prod.mk.injEq] at h
      rw [← h.2]
      simp
    · rw [if_neg h1] at h
      by_cases h2 : c = backslashChar
      · rw [if_pos h2] at h
        match rest with
        | [] =>
          dsimp only at h
          exact Option.noConfusion h
        | d :: rest2 =>
          dsimp only at h
          cases he : escapeChar d with
          | none =>
            rw [he] at h
            dsimp only at h
            exact Option.noConfusion h
          | some e =>
            rw [he] at h
            dsimp only at h
            cases hsb : strBody rest2 with
            | none =>
              rw [hsb] at h
              dsimp only at h
              exact Option.noConfusion h
            | some x =>
              obtain ⟨cs2, r2⟩ := x
              rw [hsb] at h
              dsimp only at h
              simp only [Option.some.injEq, Prod.mk.injEq] at h
              have := strBody_shrinks rest2 cs2 r2 hsb
              rw [← h.2]
              simp only [List.length_cons]
              omega
      · rw [if_neg h2] at h
        cases hsb : strBody rest with
        | none =>
          rw [hsb] at h
          dsimp only at h
          exact Option.noConfusion h
        | some x =>
          obtain ⟨cs2, r2⟩ := x
          rw [hsb] at h
          dsimp only at h
          simp only [Option.some.injEq, Prod.mk.injEq] at h
          have := strBody_shrinks rest cs2 r2 hsb
          rw [← h.2]
          simp only [List.length_cons]
          omega

theorem pStringLit_shrinks : Shrinks pStringLit := by
  intro s t r h
  unfold pStringLit at h
  match s with
  | [] =>
    dsimp only at h
    exact Option.noConfusion h
  | c :: rest =>
    dsimp only at h
    by_cases h1 : c = quoteChar
    · rw [if_pos h1] at h
      cases hsb : strBody rest with
      | none =>
        rw [hsb] at h
        dsimp only at h
        exact Option.noConfusion h
      | some x =>
        obtain ⟨cs, r2⟩ := x
        rw [hsb] at h
        dsimp only at h
        simp only [Option.some.injEq, Prod.mk.injEq] at h
        have := strBody_shrinks rest cs r2 hsb
        rw [← h.2]
        simp only [List.length_cons]
        omega
    · rw [if_neg h1] at h
      exact Option.noConfusion h

theorem pCharLit_shrinks : Shrinks pCharLit := by
  intro s t r h
  unfold pCharLit at h
  match s with
  | [] =>
    dsimp only at h
    exact Option.noConfusion h
  | c0 :: rest =>
    dsimp only at h
    by_cases h0 : c0 = tickChar
    · rw [if_pos h0] at h
      match rest with
      | [] =>
        dsimp only at h
        exact Option.noConfusion h
      | c :: rest2 =>
        dsimp only at h
        by_cases h1 : c = backslashChar
        · rw [if_pos h1] at h
          match rest2 with
          | [] =>
            dsimp only at h
            exact Option.noConfusion h
          | d :: rest3 =>
            dsimp only at h
            cases he : escapeChar d with
            | none =>
              rw [he] at h
              dsimp only at h
              exact Option.noConfusion h
            | some e =>
              rw [he] at h
              dsimp only at h
              match rest3 with
              | [] =>
                dsimp only at h
                exact Option.noConfusion h
              | q :: rest4 =>
                dsimp only at h
                by_cases hq : q = tickChar
                · rw [if_pos hq] at h
                  simp only [Option.some.injEq, Prod.mk.injEq] at h
                  rw [← h.2]
                  simp only [List.length_cons]
                  omega
                · rw [if_neg hq] at h
                  exact Option.noConfusion h
        · rw [if_neg h1] at h
          by_cases h2 : c = tickChar
          · rw [if_pos h2] at h
            exact Option.noConfusion h
          · rw [if_neg h2] at h
            match rest2 with
            | [] =>
              dsimp only at h
              exact Option.noConfusion h
            | q :: rest3 =>
              dsimp only at h
              by_cases hq : q = tickChar
              · rw [if_pos hq] at h
                simp only [Option.some.injEq, Prod.mk.injEq] at h
                rw [← h.2]
                simp only [List.length_cons]
                omega
              · rw [if_neg hq] at h
                exact Option.noConfusion h
    · rw [if_neg h0] at h
      exact Option.noConfusion h

theorem pDigits_shrinks : Shrinks pDigits := by
  intro s t r h
  unfold pDigits at h
  match s with
  | [] =>
    dsimp only at h
    exact Option.noConfusion h
  | c :: rest =>
    dsimp only at h
    by_cases h1 : c = '0'
    · rw [if_pos h1] at h
      simp only [Option.some.injEq, Prod.mk.injEq] at h
      rw [← h.2]
      simp
    · rw [if_neg h1] at h
      by_cases h2 : c.isDigit
      · rw [if_pos h2] at h
        simp only [Option.some.injEq, Prod.mk.injEq] at h
        rw [← h.2]
        have := dropWhile_len_le Char.isDigit rest
        simp only [List.length_cons]
        omega
      · rw [if_neg h2] at h
        exact Option.noConfusion h

theorem pFloat_shrinks : Shrinks pFloat := by
  intro s t r h
  unfold pFloat at h
  cases hd1 : pDigits s with
  | none =>
    rw [hd1] at h
    dsimp only at h
    exact Option.noConfusion h
  | some x =>
    obtain ⟨d1, r1⟩ := x
    rw [hd1] at h
    dsimp only at h
    have hr1 : r1.length ≤ s.length := pDigits_shrinks s d1 r1 hd1
    match r1, hr1 with
    | [], _ =>
      dsimp only at h
      exact Option.noConfusion h
    | c :: r2, hr1 =>
      dsimp only at h
      by_cases hc : c = '.'
      · rw [if_pos hc] at h
        cases hd2 : pDigits r2 with
        | none =>
          rw [hd2] at h
          dsimp only at h
          exact Option.noConfusion h
        | some y =>
          obtain ⟨d2, r3⟩ := y
          rw [hd2] at h
          dsimp only at h
          simp only [Option.some.injEq, Prod.mk.injEq] at h
          have hr3 : r3.length ≤ r2.length := pDigits_shrinks r2 d2 r3 hd2
          rw [← h.2]
          simp only [List.length_cons] at hr1
          omega
      · rw [if_neg hc] at h
        exact Option.noConfusion h

theorem pInt_shrinks : Shrinks pInt := by
  intro s t r h
  unfold pInt at h
  cases hd : pDigits s with
  | none =>
    rw [hd] at h
    dsimp only at h
    exact Option.noConfusion h
  | some x =>
    obtain ⟨ds, r1⟩ := x
    rw [hd] at h
    dsimp only at h
    have hr1 : r1.length ≤ s.length := pDigits_shrinks s ds r1 hd
    have hr2 : (match r1 with
        | c :: rest => if c = 'i' then rest else r1
        | [] => r1).length ≤ r1.length := by
      match r1 with
      | [] => exact le_refl _
      | c :: rest =>
        dsimp only
        by_cases hc : c = 'i'
        · rw [if_pos hc]
          simp
        · rw [if_neg hc]
    by_cases hb : digitsToNat ds ≤ I64MAX
    · rw [if_pos hb] at h
      simp only [Option.some.injEq, Prod.mk.injEq] at h
      rw [← h.2]
      omega
    · rw [if_neg hb] at h
      simp only [Option.some.injEq, Prod.mk.injEq] at h
      rw [← h.2]
      omega

theorem pArith_shrinks : Shrinks pArith := by
  apply firstOf_shrinks
  intro p hp
  simp only [List.mem_cons, List.not_mem_nil, or_false] at hp
  rcases hp with rfl | rfl | rfl | rfl | rfl <;> exact litV_shrinks _ _

theorem pConcat_shrinks : Shrinks pConcat := litV_shrinks _ _

theorem pComparison_shrinks : Shrinks pComparison := by
  apply firstOf_shrinks
  intro p hp
  simp only [List.mem_cons, List.not_mem_nil, or_false] at hp
  rcases hp with rfl | rfl | rfl | rfl | rfl | rfl <;> exact litV_shrinks _ _

theorem pLogical_shrinks : Shrinks pLogical := by
  apply firstOf_shrinks
  intro p hp
  simp only [List.mem_cons, List.not_mem_nil, or_false] at hp
  rcases hp with rfl | rfl | rfl <;> exact litV_shrinks _ _

theorem pOp_shrinks : Shrinks pOp := by
  intro s t r h
  unfold pOp at h
  have hin : Shrinks (firstOf [pConcat, pArith, pComparison, pLogical]) := by
    apply firstOf_shrinks
    intro p hp
    simp only [List.mem_cons, List.not_mem_nil, or_false] at hp
    rcases hp with rfl | rfl | rfl | rfl
    · exact pConcat_shrinks
    · exact pArith_shrinks
    · exact pComparison_shrinks
    · exact pLogical_shrinks
  cases hm : firstOf [pConcat, pArith, pComparison, pLogical] s with
  | none =>
    rw [hm] at h
    dsimp only at h
    exact Option.noConfusion h
  | some x =>
    obtain ⟨o, rx⟩ := x
    rw [hm] at h
    dsimp only at h
    simp only [Option.some.injEq, Prod.mk.injEq] at h
    rw [← h.2]
    exact hin s o rx hm

theorem pAssign_shrinks : Shrinks pAssign := by
  intro s t r h
  unfold pAssign at h
  cases hm : orP pArith pConcat s with
  | some x =>
    obtain ⟨o, rx⟩ := x
    rw [hm] at h
    dsimp only at h
    have hrx : rx.length ≤ s.length :=
      orP_shrinks pArith_shrinks pConcat_shrinks s o rx hm
    match rx, hrx with
    | [], _ =>
      dsimp only at h
      exact Option.noConfusion h
    | c :: r2, hrx =>
      dsimp only at h
      by_cases hc : c = '='
      · rw [if_pos hc] at h
        simp only [Option.some.injEq, Prod.mk.injEq] at h
        rw [← h.2]
        simp only [List.length_cons] at hrx
        omega
      · rw [if_neg hc] at h
        exact Option.noConfusion h
  | none =>
    rw [hm] at h
    dsimp only at h
    match s with
    | [] =>
      dsimp only at h
      exact Option.noConfusion h
    | c :: r2 =>
      dsimp only at h
      by_cases hc : c = '='
      · rw [if_pos hc] at h
        simp only [Option.some.injEq, Prod.mk.injEq] at h
        rw [← h.2]
        simp
      · rw [if_neg hc] at h
        exact Option.noConfusion h

theorem pSym_shrinks : Shrinks pSym := by
  intro s t r h
  unfold pSym at h
  have hin : Shrinks (firstOf [litV ("::") Symbol.DoubleColon, litV (":") Symbol.Colon,
      litV ("->") Symbol.RArrow, litV ("<-") Symbol.LArrow,
      litV ("=>") Symbol.FatArrow, litV ("?") Symbol.Optional,
      litV ("|") Symbol.Pipe, litV ("\\") Symbol.Backslash,
      litV (",") Symbol.Comma]) := by
    apply firstOf_shrinks
    intro p hp
    simp only [List.mem_cons, List.not_mem_nil, or_false] at hp
    rcases hp with rfl | rfl | rfl | rfl | rfl | rfl | rfl | rfl | rfl <;>
      exact litV_shrinks _ _
  cases hm : firstOf [litV ("::") Symbol.DoubleColon, litV (":") Symbol.Colon,
      litV ("->") Symbol.RArrow, litV ("<-") Symbol.LArrow,
      litV ("=>") Symbol.FatArrow, litV ("?") Symbol.Optional,
      litV ("|") Symbol.Pipe, litV ("\\") Symbol.Backslash,
      litV (",") Symbol.Comma] s with
  | none =>
    rw [hm] at h
    dsimp only at h
    exact Option.noConfusion h
  | some x =>
    obtain ⟨y, rx⟩ := x
    rw [hm] at h
    dsimp only at h
    simp only [Option.some.injEq, Prod.mk.injEq] at h
    rw [← h.2]
    exact hin s y rx hm

theorem pSym2_shrinks : Shrinks pSym2 := by
  intro s t r h
  unfold pSym2 at h
  have hin : Shrinks (firstOf [litV (".") Symbol.Dot, litV ("!") Symbol.Bang]) := by
    apply firstOf_shrinks
    intro p hp
    simp only [List.mem_cons, List.not_mem_nil, or_false] at hp
    rcases hp with rfl | rfl <;> exact litV_shrinks _ _
  cases hm : firstOf [litV (".") Symbol.Dot, litV ("!") Symbol.Bang] s with
  | none =>
    rw [hm] at h
    dsimp only at h
    exact Option.noConfusion h
  | some x =>
    obtain ⟨y, rx⟩ := x
    rw [hm] at h
    dsimp only at h
    simp only [Option.some.injEq, Prod.mk.injEq] at h
    rw [← h.2]
    exact hin s y rx hm

theorem pDelim_shrinks : Shrinks pDelim := by
  apply firstOf_shrinks
  intro p hp
  simp only [List.mem_cons, List.not_mem_nil, or_false] at hp
  rcases hp with rfl | rfl | rfl | rfl | rfl | rfl <;> exact litV_shrinks _ _

theorem pIndent_shrinks : Shrinks pIndent := by
  intro s t r h
  unfold pIndent at h
  simp only [Option.some.injEq, Prod.mk.injEq] at h
  rw [← h.2]
  exact dropWhile_len_le _ s

theorem pAnyErr_shrinks : Shrinks pAnyErr := by
  intro s t r h
  unfold pAnyErr at h
  match s with
  | [] =>
    dsimp only at h
    exact Option.noConfusion h
  | c :: rest =>
    dsimp only at h
    simp only [Option.some.injEq, Prod.mk.injEq] at h
    rw [← h.2]
    simp

theorem tokenCore_shrinks : Shrinks tokenCore := by
  unfold tokenCore
  apply orP_shrinks _ pAnyErr_shrinks
  apply firstOf_shrinks
  intro p hp
  simp only [List.mem_cons, List.not_mem_nil, or_false] at hp
  rcases hp with rfl | rfl | rfl | rfl | rfl | rfl | rfl | rfl | rfl | rfl | rfl
  · exact pWord_shrinks
  · exact pStringLit_shrinks
  · exact pCharLit_shrinks
  · exact pFloat_shrinks
  · exact pInt_shrinks
  · exact pSym_shrinks
  · exact pAssign_shrinks
  · exact pOp_shrinks
  · exact pSym2_shrinks
  · exact pDelim_shrinks
  · exact pIndent_shrinks

/-- Every token in any observed trace has a well-formed span: start at or
before end, end at most the total input length (offsets measured from the
start of an input of length `N0`). -/
theorem lexTrace_bounds (N0 : Nat) : ∀ (fuel : Nat) (s : List Char),
    ∀ t ∈ lexTrace N0 fuel s, t.2.1 ≤ t.2.2 ∧ t.2.2 ≤ N0
  | 0, s => by
    intro t ht
    simp [lexTrace] at ht
  | fuel + 1, s => by
    intro t ht
    simp only [lexTrace] at ht
    cases hm : tokenCore (skipTrivia s) with
    | none =>
      rw [hm] at ht
      simp at ht
    | some x =>
      obtain ⟨tok, s2⟩ := x
      rw [hm] at ht
      simp only [List.mem_cons] at ht
      rcases ht with rfl | ht
      · refine ⟨?_, Nat.sub_le N0 s2.length⟩
        exact Nat.sub_le_sub_left (tokenCore_shrinks (skipTrivia s) tok s2 hm) N0
      · exact lexTrace_bounds N0 fuel s2 t ht

/-- C10: for every input text and every token the tokenizer emits, the
token's span satisfies `start ≤ end ≤ length(input)` (and `0 ≤ start`
holds by the offsets being naturals): the span's start is the offset after
the padding preceding the token, its end the offset after the token, and
the token rules only ever consume input. -/
theorem lexer_span_bounds (s : List Char) (fuel : Nat) :
    ∀ t ∈ lexTrace s.length fuel s, t.2.1 ≤ t.2.2 ∧ t.2.2 ≤ s.length :=
  lexTrace_bounds s.length fuel s

/-- Witness for C10: the single token emitted for the input x — the
identifier token with span 0..1 — satisfies the bounds. -/
theorem lexer_span_bounds_witness :
    ((Token.Ident ("x"), 0, 1) : Token × Nat × Nat).2.1
        ≤ ((Token.Ident ("x"), 0, 1) : Token × Nat × Nat).2.2 ∧
      ((Token.Ident ("x"), 0, 1) : Token × Nat × Nat).2.2
        ≤ (String.toList ("x")).length :=
  lexer_span_bounds (String.toList ("x")) 1 (Token.Ident ("x"), 0, 1) (by decide)

end Luna
